import Mathlib

/-!
# cargo-v5 — protocol codec and chunked file transfer, verified model

A shallow embedding of the repository's protocol layer
(`src/v5/protocol/vex.rs`) and its chunked file-transfer loop
(`src/util.rs`), with theorems checking the specification's claims
against the code.

Bytes are modelled as `Nat` (inputs below 256); machine-integer
arithmetic carries explicit masks (`&&& 0xffff`, `% 2^32`) exactly where
the Rust types bound a value.  Fallible operations return explicit
result types; a Rust `panic!` (out-of-bounds index, `step_by(0)`) is an
explicit constructor of the result type, so that "the code panics here"
is a provable statement of the model.
-/

set_option maxRecDepth 100000

namespace CargoV5

/-- `VexDeviceCommand` (vex.rs lines 30-33): the two known command codes. -/
inductive VexDeviceCommand where
  | ExecuteFile
  | Extended
deriving DecidableEq

/-- The `u8` value of a command (`msg as u8`): `ExecuteFile = 0x18`,
`Extended = 0x56`. -/
def VexDeviceCommand.toByte : VexDeviceCommand → Nat
  | .ExecuteFile => 0x18
  | .Extended => 0x56

/-- The derived `num::FromPrimitive::from_u8` for `VexDeviceCommand`
(vex.rs line 143): the two known codes map to their variants, every
other byte to `none`. -/
def VexDeviceCommand.fromByte : Nat → Option VexDeviceCommand
  | 0x18 => some .ExecuteFile
  | 0x56 => some .Extended
  | _ => none

/-- `create_packet` (vex.rs lines 179-183): magic number then the
command byte. -/
def createPacket (msg : VexDeviceCommand) : List Nat :=
  [0xc9, 0x36, 0xb8, 0x47, msg.toByte]

/-- The byte sequence `send_simple` (vex.rs lines 155-175) writes to the
stream: the simple packet followed by the payload bytes. -/
def sendSimpleBytes (command : VexDeviceCommand) (data : List Nat) : List Nat :=
  createPacket command ++ data

/-! ## CRC-16 (the `crc` crate run with `VEX_CRC16`, vex.rs lines 8-16)

`Algorithm { poly: 0x1021, init: 0xffff, refin: false, refout: false,
xorout: 0x0000 }`: the plain most-significant-bit-first CRC-16.  The
model keeps the register a `Nat` masked to 16 bits at every shift. -/

/-- One shift of the 16-bit CRC register: shift left, and xor the
polynomial `0x1021` when the top bit was set. -/
def crc16Shift (crc : Nat) : Nat :=
  if crc &&& 0x8000 = 0 then (crc <<< 1) &&& 0xffff
  else ((crc <<< 1) ^^^ 0x1021) &&& 0xffff

/-- `n` shifts of the CRC register. -/
def crc16Bits : Nat → Nat → Nat
  | 0, crc => crc
  | n + 1, crc => crc16Bits n (crc16Shift crc)

/-- Folding one input byte into the register: xor the byte into the
high half, then shift eight times. -/
def crc16Update (crc b : Nat) : Nat :=
  crc16Bits 8 (crc ^^^ ((b &&& 0xff) <<< 8))

/-- The checksum of a byte sequence: register initialised to `0xffff`
(`init`), every byte folded in, no final xor (`xorout: 0x0000`). -/
def crc16 (data : List Nat) : Nat :=
  data.foldl crc16Update 0xffff

/-! ## `create_extended_packet` (vex.rs lines 186-224) -/

/-- Result of `create_extended_packet`.  `tryIntoErr` is the
`payload.len().try_into::<u8>()` failure (vex.rs line 193), propagated
with `?`, which fires exactly when the payload is longer than 255. -/
inductive ExtendedResult where
  | ok (packet : List Nat)
  | tryIntoErr
deriving DecidableEq

/-- `create_extended_packet` (vex.rs lines 186-224).

* `payload_length` is a `u8` (line 193), so lengths above 255 fail.
* The length bytes are pushed only under `payload_length > 0x80`
  (lines 197-200); there is no `else` branch, so a payload of 0x80
  bytes or fewer gets no length field at all.
* The high length byte is `payload_length.checked_shr(8).unwrap_or(0) | 0x80`,
  and `checked_shr 8` on a `u8` is always `None`, so the byte is
  `0 ||| 0x80`.
* The checksum is the CRC-16 of `create_packet(Extended) ++ packet` as
  built so far (lines 206-215), appended high byte first (lines 218-219). -/
def createExtendedPacket (msg : VexDeviceCommand) (payload : List Nat) : ExtendedResult :=
  if 255 < payload.length then .tryIntoErr
  else
    let lenField : List Nat :=
      if 0x80 < payload.length then [0 ||| 0x80, payload.length &&& 0xff] else []
    let packet := [msg.toByte] ++ lenField ++ payload
    let payloadProper := createPacket .Extended ++ packet
    let crc := crc16 payloadProper
    .ok (packet ++ [(crc >>> 8) &&& 0xff, crc &&& 0xff])

/-! ## `receive_simple` (vex.rs lines 81-152)

The stream is a list of the bytes the transport will deliver, in order.
`read_exact` on an exhausted list is the propagated I/O error
(`ioError`).  The `SystemTime` deadline is modelled by a read budget:
the `then.elapsed()` test at line 112 is false for the first `budget`
loop iterations and true from then on, which is exactly the behaviour
of `then = now + timeout` under a constant per-read delay. -/

/-- Outcome of the header-resynchronisation loop (vex.rs lines 91-115). -/
inductive ScanResult where
  | panicOOB
  | ioError
  | syncTimeout
  | found (rest : List Nat)
deriving DecidableEq

/-- `expected_header` (vex.rs line 91). -/
def expectedHeader : List Nat := [0xAA, 0x55]

/-- The index update of one loop iteration (vex.rs lines 105-109):
`header_index + 1` when the byte read equals
`expected_header[header_index]`, otherwise 0.  The bound `idx < 2`
witnesses that this particular array access is in range. -/
def stepIndex (idx b : Nat) (h : idx < 2) : Nat :=
  if b = expectedHeader.get ⟨idx, by simpa [expectedHeader] using h⟩ then idx + 1 else 0

/-- The `while header_index < 3` loop of `receive_simple` (vex.rs lines
98-115), byte for byte:

* read one byte (`read_exact`, error on an exhausted stream);
* `expected_header[header_index]` is an array access on a 2-element
  array: for `header_index ≥ 2` it is out of bounds, a Rust panic
  (`panicOOB`);
* on a match the index is incremented, otherwise reset to 0
  (`stepIndex`);
* the timeout test (line 112) returns the sync-timeout error whenever
  the deadline has elapsed (`budget` spent) and the updated
  `header_index` is below 3. -/
def scanHeader : List Nat → Nat → Nat → ScanResult
  | [], idx, _budget => if idx < 3 then .ioError else .found []
  | b :: rest, idx, budget =>
    if idx < 3 then
      if h2 : idx < 2 then
        if budget = 0 ∧ stepIndex idx b h2 < 3 then .syncTimeout
        else scanHeader rest (stepIndex idx b h2) (budget - 1)
      else .panicOOB
    else .found (b :: rest)

/-- Outcome of `receive_simple`. -/
inductive RecvResult where
  | panicOOB
  | ioError
  | syncTimeout
  | unknownCommand (b : Nat)
  | ok (command : VexDeviceCommand) (payload : List Nat)
deriving DecidableEq

/-- `true` exactly on the success outcome. -/
def RecvResult.isOk : RecvResult → Bool
  | .ok _ _ => true
  | _ => false

/-- The payload read and the command mapping (vex.rs lines 138-151):
`vec![0; length]` is filled by a single `Read::read` whose byte count is
discarded, so the payload is the next `min length rest.length` stream
bytes followed by the untouched zero initialisation; then the raw
command byte is mapped through `from_u8`, unknown bytes becoming the
`Unknown command` error. -/
def finishBody (command length : Nat) (rest : List Nat) : RecvResult :=
  let payload := rest.take length ++ List.replicate (length - rest.length) 0
  match VexDeviceCommand.fromByte command with
  | some c => .ok c payload
  | none => .unknownCommand command

/-- The part of `receive_simple` after the header loop (vex.rs lines
117-151): `read_exact` of the command byte and the length byte, one
further length byte folded in big-endian (`length <<= 8; length |= b`)
when the command byte equals `Extended` (`0x56`), then `finishBody`. -/
def receiveBody : List Nat → RecvResult
  | b0 :: b1 :: rest2 =>
    if b0 = 0x56 then
      match rest2 with
      | b2 :: rest3 => finishBody b0 (((b1 : Nat) <<< 8) ||| b2) rest3
      | [] => .ioError
    else finishBody b0 b1 rest2
  | _ => .ioError

/-- `receive_simple` (vex.rs lines 81-152): the header scan, then the
body. -/
def receiveSimple (stream : List Nat) (budget : Nat) : RecvResult :=
  match scanHeader stream 0 budget with
  | .panicOOB => .panicOOB
  | .ioError => .ioError
  | .syncTimeout => .syncTimeout
  | .found rest => receiveBody rest

/-- The spec-side condition of a stream that "never produces the
synchronization marker": no adjacent pair `0xAA, 0x55` occurs. -/
def hasMarker : List Nat → Bool
  | a :: b :: t => (a = 0xAA && b = 0x55) || hasMarker (b :: t)
  | _ => false

/-! ## `write_file_progress` (util.rs lines 103-165)

The external file handle only receives `write_some(address, bytes)`
calls; the model records them as `(address, bytes)` pairs in issue
order, together with the returned `how_much`.  The progress bar and
console output are presentation only and are not modelled. -/

/-- `max_size` (util.rs lines 108-109): `max_packet_size / 2 +
max_packet_size / 4` in integer division. -/
def maxSize (maxPacketSize : Nat) : Nat :=
  maxPacketSize / 2 + maxPacketSize / 4

/-- `packet_size` for the iteration at offset `i` (util.rs lines
139-145). -/
def packetSize (size L i : Nat) : Nat :=
  if size < L then size
  else if size < i + L then size - i else L

/-- The `for i in (0..size).step_by(L)` loop (util.rs lines 136-159) as
the list of `(offset, packet_size)` pairs of its iterations.  The fuel
argument only bounds the recursion: each iteration advances `i` by
`L ≥ 1`, so `size - i` iterations always suffice (`chunkLoop` below
supplies exactly that; `L = 0` never reaches the loop because
`step_by(0)` panics first, see `writeFileProgress`). -/
def chunkLoopF : Nat → Nat → Nat → Nat → List (Nat × Nat)
  | 0, _, _, _ => []
  | fuel + 1, size, L, i =>
    if i < size ∧ 0 < L then (i, packetSize size L i) :: chunkLoopF fuel size L (i + L)
    else []

/-- The iterations of the write loop from offset `i` on. -/
def chunkLoop (size L i : Nat) : List (Nat × Nat) :=
  chunkLoopF (size - i) size L i

/-- Outcome of `write_file_progress`: the `write_some` calls in order
and the returned total, or the `step_by(0)` panic. -/
inductive WriteResult where
  | panicked
  | ok (writes : List (Nat × List Nat)) (total : Nat)
deriving DecidableEq

/-- `write_file_progress` (util.rs lines 103-165):

* `max_size = max_packet_size / 2 + max_packet_size / 4` (lines 108-109);
* `size` is `file_size` when `data.len() as u32` exceeds it, else
  `data.len() as u32` (lines 115-119); the `as u32` cast truncates
  mod `2^32`;
* `(0..size).step_by(max_size)` panics when `max_size = 0`;
* each iteration writes `data[i..i+packet_size]` at
  `metadata.addr + i` (lines 148-151) and adds `packet_size` to
  `how_much` (line 158), which is returned (line 164). -/
def writeFileProgress (maxPacketSize fileSize addr : Nat) (data : List Nat) : WriteResult :=
  let L := maxSize maxPacketSize
  let dlen := data.length % 2 ^ 32
  let size := if fileSize < dlen then fileSize else dlen
  if L = 0 then .panicked
  else
    let chunks := chunkLoop size L 0
    .ok (chunks.map fun p => (addr + p.1, (data.drop p.1).take p.2))
      (chunks.map Prod.snd).sum

/-- The observable shape of a successful transfer: each write's address
and byte count, and the returned total. -/
def WriteResult.shape : WriteResult → Option (List (Nat × Nat) × Nat)
  | .panicked => none
  | .ok ws total => some (ws.map fun w => (w.1, w.2.length), total)

/-! ## Lemmas about the header scan -/

theorem stepIndex_le (idx b : Nat) (h : idx < 2) : stepIndex idx b h ≤ 2 := by
  unfold stepIndex; split <;> omega

theorem stepIndex_zero (b : Nat) (h : (0 : Nat) < 2) :
    stepIndex 0 b h = if b = 0xAA then 1 else 0 := by
  simp [stepIndex, expectedHeader]

theorem stepIndex_one (b : Nat) (h : (1 : Nat) < 2) :
    stepIndex 1 b h = if b = 0x55 then 2 else 0 := by
  simp [stepIndex, expectedHeader]

/-- The loop can never terminate successfully: exiting the `while`
requires `header_index ≥ 3`, and any iteration entered with
`header_index = 2` hits the out-of-bounds access first. -/
theorem scanHeader_ne_found (s : List Nat) : ∀ idx budget, idx ≤ 2 →
    ∀ r, scanHeader s idx budget ≠ .found r := by
  induction s with
  | nil =>
      intro idx budget h r
      simp only [scanHeader]
      split
      · exact fun hc => ScanResult.noConfusion hc
      · omega
  | cons b rest ih =>
      intro idx budget h r
      simp only [scanHeader]
      split
      · split
        · split
          · exact fun hc => ScanResult.noConfusion hc
          · rename_i h2 _
            exact ih (stepIndex idx b h2) (budget - 1) (stepIndex_le idx b h2) r
        · exact fun hc => ScanResult.noConfusion hc
      · omega

/-- `receive_simple` never returns `Ok`, whatever the stream and the
timeout: the only path to the body is through a successful scan. -/
theorem receiveSimple_isOk_false (stream : List Nat) (budget : Nat) :
    (receiveSimple stream budget).isOk = false := by
  unfold receiveSimple
  cases hs : scanHeader stream 0 budget with
  | panicOOB => rfl
  | ioError => rfl
  | syncTimeout => rfl
  | found rest => exact absurd hs (scanHeader_ne_found stream 0 budget (by omega) rest)

theorem hasMarker_tail (a : Nat) (l : List Nat) (h : hasMarker (a :: l) = false) :
    hasMarker l = false := by
  cases l with
  | nil => rfl
  | cons c t =>
      simp only [hasMarker, Bool.or_eq_false_iff] at h
      exact h.2

theorem hasMarker_head (l t : List Nat)
    (h : hasMarker (0xAA :: l) = false) (ht : l = 0x55 :: t) : False := by
  subst ht
  simp [hasMarker] at h

/-- On a marker-free stream the scan loop keeps `header_index ≤ 1`,
never reaches the out-of-bounds access, and returns the sync-timeout
error at the first iteration past the deadline. -/
theorem scanHeader_timeout (s : List Nat) : ∀ idx budget,
    (idx = 0 ∨ (idx = 1 ∧ ∀ t, s ≠ 0x55 :: t)) →
    hasMarker s = false → budget < s.length →
    scanHeader s idx budget = .syncTimeout := by
  induction s with
  | nil =>
      intro idx budget _ _ hb
      exact absurd hb (by simp)
  | cons b rest ih =>
      intro idx budget hidx hm hb
      have h3 : idx < 3 := by rcases hidx with h | ⟨h, _⟩ <;> omega
      have h2 : idx < 2 := by rcases hidx with h | ⟨h, _⟩ <;> omega
      simp only [scanHeader, if_pos h3, dif_pos h2]
      have hstep : stepIndex idx b h2 = 0 ∨
          (stepIndex idx b h2 = 1 ∧ ∀ t, rest ≠ 0x55 :: t) := by
        rcases hidx with h0 | ⟨h1, hne⟩
        · subst h0
          rw [stepIndex_zero]
          split
          · rename_i hAA
            subst hAA
            exact Or.inr ⟨rfl, fun t htt => hasMarker_head rest t hm htt⟩
          · exact Or.inl rfl
        · subst h1
          rw [stepIndex_one]
          have hb55 : ¬ b = 0x55 := fun hbb => hne rest (by rw [hbb])
          rw [if_neg hb55]
          exact Or.inl rfl
      have hlt : stepIndex idx b h2 < 3 := by
        rcases hstep with h | ⟨h, _⟩ <;> omega
      by_cases hz : budget = 0
      · rw [if_pos ⟨hz, hlt⟩]
      · rw [if_neg (fun hc => hz hc.1)]
        exact ih (stepIndex idx b h2) (budget - 1) hstep (hasMarker_tail b rest hm)
          (by simp at hb; omega)

/-! ## Claim theorems: the protocol layer -/

/-- **C1** (code_bug evidence).  The claim states the header scan keeps
its match count within `[0, 2]`, never indexes the 2-byte
`expected_header` at or past index 2, and completes when the count
reaches 2.  The code instead loops `while header_index < 3`: the moment
both marker bytes `0xAA, 0x55` have matched it reads a further byte and
evaluates `expected_header[2]`, an out-of-bounds array access (a Rust
panic).  Evaluated on the stream `[0xAA, 0x55, 0x00]` inside the
deadline, `receive_simple` panics; the second conjunct shows the loop
state that does it (`header_index = 2`, one more byte available). -/
theorem c1_scan_indexes_past_marker :
    receiveSimple [0xAA, 0x55, 0x00] 100 = RecvResult.panicOOB
      ∧ scanHeader [0x00] 2 98 = ScanResult.panicOOB := by
  constructor
  · decide
  · decide

/-- **C2** (amended).  The round-trip claim fails: `receive_simple`
scans for the response header `[0xAA, 0x55]`, not the transmit magic
`[0xC9, 0x36, 0xB8, 0x47]` that `send_simple` emits, a simple frame
carries no length field for the decoder's length byte to read, and the
scan loop cannot terminate successfully at all; so decoding the bytes
produced by encoding a simple frame never recovers `(cmd, payload)` —
it always fails, for every command, payload and timeout. -/
theorem c2_decode_never_recovers (cmd : VexDeviceCommand) (data : List Nat) (budget : Nat) :
    (receiveSimple (sendSimpleBytes cmd data) budget).isOk = false :=
  receiveSimple_isOk_false (sendSimpleBytes cmd data) budget

/-- **C2** counterexample: decoding the exact bytes of an encoded
`ExecuteFile` frame with empty payload yields the propagated
`read_exact` I/O error, not `(ExecuteFile, [])`: the stream is
exhausted while the scan is still searching for `[0xAA, 0x55]`. -/
theorem c2_cex_roundtrip_fails :
    receiveSimple (sendSimpleBytes VexDeviceCommand.ExecuteFile []) 100
      = RecvResult.ioError := by decide

/-- **C8** (code_bug evidence).  The decode path for an unknown command
byte does exist — `from_u8 0x99` is `None` and `finishBody` would turn
it into the `UnknownCommand`-carrying error — but on a real stream
`receive_simple` panics on the out-of-bounds header access before the
command byte is ever examined, so the unknown byte `0x99` is never
reported. -/
theorem c8_unknown_command_unreachable :
    receiveSimple [0xAA, 0x55, 0x99, 0x02, 0x01, 0x02] 100 = RecvResult.panicOOB
      ∧ VexDeviceCommand.fromByte 0x99 = none
      ∧ finishBody 0x99 0x02 [0x01, 0x02] = RecvResult.unknownCommand 0x99 := by
  refine ⟨by decide, rfl, by decide⟩

/-- **C9**.  A stream that never produces the synchronization marker
(no adjacent `0xAA, 0x55` pair) makes `receive_simple` return the
sync-timeout error once the deadline has elapsed — the model counts the
timeout in reads: `budget` is the number of loop iterations whose
deadline test still sees time remaining, so `budget < stream.length`
says the stream is still delivering bytes when the deadline passes. -/
theorem c9_sync_timeout (stream : List Nat) (budget : Nat)
    (hm : hasMarker stream = false) (hb : budget < stream.length) :
    receiveSimple stream budget = RecvResult.syncTimeout := by
  unfold receiveSimple
  rw [scanHeader_timeout stream 0 budget (Or.inl rfl) hm hb]

/-- **C9** witness: a concrete marker-free stream of three zero bytes
with a one-read budget times out. -/
theorem c9_sync_timeout_witness :
    receiveSimple [0, 0, 0] 1 = RecvResult.syncTimeout :=
  c9_sync_timeout [0, 0, 0] 1 (by decide) (by decide)

/-! ## Lemmas about the CRC register -/

theorem crc16Shift_lt (crc : Nat) : crc16Shift crc < 65536 := by
  unfold crc16Shift
  split
  · have h := @Nat.and_le_right (crc <<< 1) 0xffff
    omega
  · have h := @Nat.and_le_right ((crc <<< 1) ^^^ 0x1021) 0xffff
    omega

theorem crc16Bits_lt : ∀ n crc, 0 < n → crc16Bits n crc < 65536
  | 1, crc, _ => crc16Shift_lt crc
  | n + 2, crc, _ => crc16Bits_lt (n + 1) (crc16Shift crc) (by omega)

theorem crc16Update_lt (crc b : Nat) : crc16Update crc b < 65536 :=
  crc16Bits_lt 8 _ (by omega)

theorem crc16_foldl_lt (l : List Nat) : ∀ acc, acc < 65536 →
    l.foldl crc16Update acc < 65536 := by
  induction l with
  | nil => exact fun acc h => h
  | cons b t ih => exact fun acc _ => ih (crc16Update acc b) (crc16Update_lt acc b)

/-- The CRC register always fits 16 bits. -/
theorem crc16_lt (l : List Nat) : crc16 l < 65536 :=
  crc16_foldl_lt l 0xffff (by omega)

/-! ## Claim theorems: the extended-packet encoder -/

/-- **C3** (code_bug evidence).  The claim (with the spec) says a
payload of at most 0x80 bytes gets a 1-byte length field equal to its
length, longer payloads up to 0x7FFF a 2-byte field.  The code pushes
length bytes only under `payload_length > 0x80` — there is no `else`
branch — so a 1-byte payload produces `[command, payload…, crc, crc]`
with no length field at all (first conjunct: the byte after the command
is already the payload byte `0x00`, and the packet is 4 bytes, not 5).
Moreover `payload.len()` is converted to `u8`, so a 256-byte payload —
well inside the claimed range — fails instead of encoding (second
conjunct). -/
theorem c3_no_length_field :
    createExtendedPacket VexDeviceCommand.ExecuteFile [0x00]
        = ExtendedResult.ok [0x18, 0x00, 0x7b, 0x6c]
      ∧ createExtendedPacket VexDeviceCommand.ExecuteFile (List.replicate 256 0)
        = ExtendedResult.tryIntoErr := by
  constructor
  · decide
  · decide

/-- **C4**.  Whenever `create_extended_packet` succeeds, the produced
packet is the inner region followed by exactly two checksum bytes: the
big-endian bytes of the CRC-16 (poly `0x1021`, init `0xffff`,
non-reflected, zero xor-out) of the entire outer sequence
`create_packet(Extended) ++ inner region` — computed before the
checksum bytes are appended, so they are never part of their own
computation. -/
theorem c4_checksum_trailing (msg : VexDeviceCommand) (payload pkt : List Nat)
    (h : createExtendedPacket msg payload = ExtendedResult.ok pkt) :
    2 ≤ pkt.length
      ∧ crc16 (createPacket VexDeviceCommand.Extended ++ pkt.take (pkt.length - 2)) < 65536
      ∧ pkt = pkt.take (pkt.length - 2)
          ++ [crc16 (createPacket VexDeviceCommand.Extended ++ pkt.take (pkt.length - 2)) / 256,
              crc16 (createPacket VexDeviceCommand.Extended ++ pkt.take (pkt.length - 2)) % 256] := by
  have hm8 : ∀ x : Nat, x &&& 0xff = x % 256 := fun x => by
    have hx := Nat.and_pow_two_sub_one_eq_mod x 8
    norm_num at hx
    exact hx
  unfold createExtendedPacket at h
  split at h
  · simp at h
  · injection h with h
    set inner : List Nat :=
      [msg.toByte] ++ (if 0x80 < payload.length
        then [0 ||| 0x80, payload.length &&& 0xff] else []) ++ payload with hinner
    set c : Nat := crc16 (createPacket VexDeviceCommand.Extended ++ inner) with hc
    have hpkt : pkt = inner ++ [(c >>> 8) &&& 0xff, c &&& 0xff] := h.symm
    have hlen : pkt.length = inner.length + 2 := by
      rw [hpkt]; simp
    have htake : pkt.take (pkt.length - 2) = inner := by
      rw [hpkt]
      simp
    have hclt : c < 65536 := crc16_lt _
    have hhi : (c >>> 8) &&& 0xff = c / 256 := by
      rw [hm8, Nat.shiftRight_eq_div_pow]
      have h28 : (2 : Nat) ^ 8 = 256 := by norm_num
      rw [h28]
      omega
    refine ⟨by omega, ?_, ?_⟩
    · rw [htake]; exact hclt
    · rw [htake, hpkt, hhi, hm8]

/-- **C4** witness: the extended packet for `ExecuteFile` with empty
payload, whose checksum bytes `0xe2, 0xa6` are the big-endian CRC-16 of
`[0xC9, 0x36, 0xB8, 0x47, 0x56, 0x18]`. -/
theorem c4_checksum_trailing_witness :
    2 ≤ ([0x18, 0xe2, 0xa6] : List Nat).length
      ∧ crc16 (createPacket VexDeviceCommand.Extended
          ++ ([0x18, 0xe2, 0xa6] : List Nat).take (([0x18, 0xe2, 0xa6] : List Nat).length - 2)) < 65536
      ∧ ([0x18, 0xe2, 0xa6] : List Nat)
          = ([0x18, 0xe2, 0xa6] : List Nat).take (([0x18, 0xe2, 0xa6] : List Nat).length - 2)
          ++ [crc16 (createPacket VexDeviceCommand.Extended
                ++ ([0x18, 0xe2, 0xa6] : List Nat).take (([0x18, 0xe2, 0xa6] : List Nat).length - 2)) / 256,
              crc16 (createPacket VexDeviceCommand.Extended
                ++ ([0x18, 0xe2, 0xa6] : List Nat).take (([0x18, 0xe2, 0xa6] : List Nat).length - 2)) % 256] :=
  c4_checksum_trailing VexDeviceCommand.ExecuteFile [] [0x18, 0xe2, 0xa6] (by decide)

/-- **C10**.  When `receive_simple`'s body decodes a length `L` (the
plain length byte, or the two big-endian bytes for an `Extended` reply),
the returned payload has exactly `L` bytes whatever the stream still
holds: the buffer `vec![0; L]` is filled by one `read` whose count is
ignored, so a short stream yields the delivered prefix silently padded
with zeros — and no error. -/
theorem c10_payload_zero_padded (b1 b2 : Nat) (rest : List Nat) :
    receiveBody (0x18 :: b1 :: rest)
        = RecvResult.ok VexDeviceCommand.ExecuteFile
            (rest.take b1 ++ List.replicate (b1 - rest.length) 0)
      ∧ (rest.take b1 ++ List.replicate (b1 - rest.length) 0).length = b1
      ∧ receiveBody (0x56 :: b1 :: b2 :: rest)
        = RecvResult.ok VexDeviceCommand.Extended
            (rest.take ((b1 <<< 8) ||| b2)
              ++ List.replicate (((b1 <<< 8) ||| b2) - rest.length) 0)
      ∧ (rest.take ((b1 <<< 8) ||| b2)
          ++ List.replicate (((b1 <<< 8) ||| b2) - rest.length) 0).length
          = (b1 <<< 8) ||| b2 := by
  refine ⟨rfl, ?_, rfl, ?_⟩
  · simp only [List.length_append, List.length_take, List.length_replicate]
    omega
  · simp only [List.length_append, List.length_take, List.length_replicate]
    omega

/-! ## Lemmas about the write loop -/

/-- The fuel argument of `chunkLoopF` is irrelevant as long as it covers
the remaining iterations. -/
theorem chunkLoopF_congr (size L : Nat) (hL : 0 < L) :
    ∀ f1 f2 i, size - i ≤ f1 → size - i ≤ f2 →
      chunkLoopF f1 size L i = chunkLoopF f2 size L i := by
  intro f1
  induction f1 with
  | zero =>
      intro f2 i h1 _
      have hi : ¬ i < size := by omega
      cases f2 with
      | zero => rfl
      | succ g => simp [chunkLoopF, hi]
  | succ f ih =>
      intro f2 i h1 h2
      by_cases hi : i < size
      · cases f2 with
        | zero => omega
        | succ g =>
            simp only [chunkLoopF]
            rw [if_pos (⟨hi, hL⟩ : i < size ∧ 0 < L), if_pos (⟨hi, hL⟩ : i < size ∧ 0 < L)]
            rw [ih g (i + L) (by omega) (by omega)]
      · cases f2 with
        | zero => simp [chunkLoopF, hi]
        | succ g => simp [chunkLoopF, hi]

theorem chunkLoop_cons (size L i : Nat) (hL : 0 < L) (hi : i < size) :
    chunkLoop size L i = (i, packetSize size L i) :: chunkLoop size L (i + L) := by
  unfold chunkLoop
  obtain ⟨k, hk⟩ : ∃ k, size - i = k + 1 := ⟨size - i - 1, by omega⟩
  rw [hk]
  simp only [chunkLoopF]
  rw [if_pos (⟨hi, hL⟩ : i < size ∧ 0 < L)]
  rw [chunkLoopF_congr size L hL k (size - (i + L)) (i + L) (by omega) (by omega)]

theorem chunkLoop_nil (size L i : Nat) (hi : size ≤ i) :
    chunkLoop size L i = [] := by
  unfold chunkLoop
  have h0 : size - i = 0 := by omega
  rw [h0]
  rfl

/-- Every chunk before the last one is a full `L`-byte chunk. -/
theorem chunkLoop_dropLast (size L : Nat) (hL : 0 < L) :
    ∀ n i, size - i ≤ n →
      ∀ p ∈ (chunkLoop size L i).dropLast, p.2 = L := by
  intro n
  induction n with
  | zero =>
      intro i h p hp
      rw [chunkLoop_nil size L i (by omega)] at hp
      simp at hp
  | succ n ih =>
      intro i h p hp
      by_cases hi : i < size
      · rw [chunkLoop_cons size L i hL hi] at hp
        by_cases hi2 : i + L < size
        · have hcons2 := chunkLoop_cons size L (i + L) hL hi2
          rw [hcons2] at hp
          simp only [List.dropLast] at hp
          rcases List.mem_cons.mp hp with rfl | hp'
          · show packetSize size L i = L
            unfold packetSize
            split
            · omega
            · split <;> omega
          · rw [← hcons2] at hp'
            exact ih (i + L) (by omega) p hp'
        · rw [chunkLoop_nil size L (i + L) (by omega)] at hp
          simp at hp
      · rw [chunkLoop_nil size L i (by omega)] at hp
        simp at hp

/-- The last chunk is the remainder `size - offset`, between 1 and `L`
bytes.  The side condition `size < L → i = 0` holds for every offset the
loop actually visits (offsets are multiples of `L`). -/
theorem chunkLoop_getLast (size L : Nat) (hL : 0 < L) :
    ∀ n i, size - i ≤ n → (size < L → i = 0) → i < size →
      ∀ p, (chunkLoop size L i).getLast? = some p →
        p.2 = size - p.1 ∧ 1 ≤ p.2 ∧ p.2 ≤ L := by
  intro n
  induction n with
  | zero => intro i h _ hi; omega
  | succ n ih =>
      intro i h h0 hi p hp
      rw [chunkLoop_cons size L i hL hi] at hp
      by_cases hi2 : i + L < size
      · have hcons2 := chunkLoop_cons size L (i + L) hL hi2
        rw [hcons2, List.getLast?_cons_cons, ← hcons2] at hp
        exact ih (i + L) (by omega) (fun hs => absurd hs (by omega)) hi2 p hp
      · rw [chunkLoop_nil size L (i + L) (by omega)] at hp
        simp only [List.getLast?_singleton, Option.some.injEq] at hp
        subst hp
        unfold packetSize
        split
        · rename_i hs
          have h00 : i = 0 := h0 hs
          subst h00
          refine ⟨?_, ?_, ?_⟩
          · show size = size - 0
            omega
          · show 1 ≤ size
            omega
          · show size ≤ L
            omega
        · split
          · refine ⟨rfl, ?_, ?_⟩
            · show 1 ≤ size - i
              omega
            · show size - i ≤ L
              omega
          · refine ⟨?_, ?_, ?_⟩
            · show L = size - i
              omega
            · show 1 ≤ L
              omega
            · show L ≤ L
              omega

/-- The offsets of the writes are strictly increasing. -/
theorem chunkLoop_chain (size L : Nat) (hL : 0 < L) :
    ∀ n i, size - i ≤ n →
      List.Chain' (fun p q : Nat × Nat => p.1 < q.1) (chunkLoop size L i) := by
  intro n
  induction n with
  | zero =>
      intro i h
      rw [chunkLoop_nil size L i (by omega)]
      exact List.chain'_nil
  | succ n ih =>
      intro i h
      by_cases hi : i < size
      · rw [chunkLoop_cons size L i hL hi]
        by_cases hi2 : i + L < size
        · rw [chunkLoop_cons size L (i + L) hL hi2]
          refine List.chain'_cons.mpr ⟨show i < i + L by omega, ?_⟩
          rw [← chunkLoop_cons size L (i + L) hL hi2]
          exact ih (i + L) (by omega)
        · rw [chunkLoop_nil size L (i + L) (by omega)]
          exact List.chain'_singleton _
      · rw [chunkLoop_nil size L i (by omega)]
        exact List.chain'_nil

/-- The chunk sizes sum to the whole remaining size: the loop transfers
exactly `size - i` bytes from offset `i` on. -/
theorem chunkLoop_sum (size L : Nat) (hL : 0 < L) :
    ∀ n i, size - i ≤ n → (size < L → i = 0 ∨ size ≤ i) →
      ((chunkLoop size L i).map Prod.snd).sum = size - i := by
  intro n
  induction n with
  | zero =>
      intro i h _
      rw [chunkLoop_nil size L i (by omega)]
      simp
      omega
  | succ n ih =>
      intro i h h0
      by_cases hi : i < size
      · rw [chunkLoop_cons size L i hL hi]
        simp only [List.map_cons, List.sum_cons]
        rw [ih (i + L) (by omega) (fun hs => Or.inr (by rcases h0 hs with h' | h' <;> omega))]
        unfold packetSize
        split
        · rename_i hs
          rcases h0 hs with h' | h' <;> omega
        · split <;> omega
      · rw [chunkLoop_nil size L i (by omega)]
        simp
        omega

/-- Every chunk stays inside the first `size` bytes of the buffer. -/
theorem chunkLoop_bounds (size L : Nat) (hL : 0 < L) :
    ∀ n i, size - i ≤ n → (size < L → i = 0 ∨ size ≤ i) →
      ∀ p ∈ chunkLoop size L i, p.1 + p.2 ≤ size := by
  intro n
  induction n with
  | zero =>
      intro i h _ p hp
      rw [chunkLoop_nil size L i (by omega)] at hp
      simp at hp
  | succ n ih =>
      intro i h h0 p hp
      by_cases hi : i < size
      · rw [chunkLoop_cons size L i hL hi] at hp
        rcases List.mem_cons.mp hp with rfl | hp'
        · show i + packetSize size L i ≤ size
          unfold packetSize
          split
          · rename_i hs
            rcases h0 hs with h' | h' <;> omega
          · split <;> omega
        · exact ih (i + L) (by omega)
            (fun hs => Or.inr (by rcases h0 hs with h' | h' <;> omega)) p hp'
      · rw [chunkLoop_nil size L i (by omega)] at hp
        simp at hp

/-! ## Claim theorems: the chunked write loop -/

/-- **C5**.  From offset 0, every chunk of the write loop except the
last is exactly `L` bytes, the last is the remainder `size - offset`
(between 1 and `L` bytes), the offsets strictly increase; and the
claim's concrete instance — a 1000-byte buffer, chunk limit 300 (from
`max_packet_size = 400`), declared size 1000, base address `0x3800000` —
issues exactly 4 writes of sizes 300, 300, 300, 100 at `base`,
`base+300`, `base+600`, `base+900` and returns 1000. -/
theorem c5_chunk_sizes (size L : Nat) (hL : 0 < L) (hs : 0 < size) :
    (∀ p ∈ (chunkLoop size L 0).dropLast, p.2 = L)
      ∧ (∀ p, (chunkLoop size L 0).getLast? = some p →
          p.2 = size - p.1 ∧ 1 ≤ p.2 ∧ p.2 ≤ L)
      ∧ List.Chain' (fun p q : Nat × Nat => p.1 < q.1) (chunkLoop size L 0)
      ∧ (writeFileProgress 400 1000 0x3800000 (List.replicate 1000 0)).shape
          = some ([(0x3800000, 300), (0x3800000 + 300, 300),
                   (0x3800000 + 600, 300), (0x3800000 + 900, 100)], 1000) := by
  refine ⟨?_, ?_, ?_, by decide⟩
  · exact chunkLoop_dropLast size L hL size 0 (by omega)
  · exact fun p hp =>
      chunkLoop_getLast size L hL size 0 (by omega) (fun _ => rfl) hs p hp
  · exact chunkLoop_chain size L hL size 0 (by omega)

/-- **C5** witness: the general statement instantiated at the claim's
own numbers, `size = 1000`, `L = 300`. -/
theorem c5_chunk_sizes_witness :
    (∀ p ∈ (chunkLoop 1000 300 0).dropLast, p.2 = 300)
      ∧ (∀ p, (chunkLoop 1000 300 0).getLast? = some p →
          p.2 = 1000 - p.1 ∧ 1 ≤ p.2 ∧ p.2 ≤ 300)
      ∧ List.Chain' (fun p q : Nat × Nat => p.1 < q.1) (chunkLoop 1000 300 0)
      ∧ (writeFileProgress 400 1000 0x3800000 (List.replicate 1000 0)).shape
          = some ([(0x3800000, 300), (0x3800000 + 300, 300),
                   (0x3800000 + 600, 300), (0x3800000 + 900, 100)], 1000) :=
  c5_chunk_sizes 1000 300 (by decide) (by decide)

/-- **C6** counterexample: for a negotiated `max_packet_size` of 7 the
code's chunk limit `7/2 + 7/4` is 4, while the claimed `7 * 3 / 4`
is 5. -/
theorem c6_cex_chunk_limit : maxSize 7 = 4 ∧ 7 * 3 / 4 = 5 := by decide

/-- **C6** (amended).  The chunk limit is `mps/2 + mps/4` in integer
arithmetic, which equals `mps * 3 / 4` except when `mps ≡ 3 (mod 4)`,
where it falls short by one. -/
theorem c6_chunk_limit_formula (mps : Nat) :
    maxSize mps = if mps % 4 = 3 then mps * 3 / 4 - 1 else mps * 3 / 4 := by
  unfold maxSize
  split <;> omega

/-- **C7** counterexample: with `max_packet_size = 1` the chunk limit
`1/2 + 1/4` is 0 and `(0..size).step_by(0)` panics — even for an empty
buffer and declared size 0, where the claim promises zero writes and a
return of 0. -/
theorem c7_cex_step_by_zero_panics :
    writeFileProgress 1 0 0 [] = WriteResult.panicked := by decide

/-- **C7** (amended).  Provided the chunk limit `mps/2 + mps/4` is
positive (`mps ≥ 2`; otherwise `step_by(0)` panics) and the buffer
length fits the `u32` cast, `write_file_progress` returns exactly
`effective_size = min (len data) fileSize`, its chunks never reach past
the buffer's own length, and a zero effective size (empty buffer or
declared size 0) gives zero `write_some` calls. -/
theorem c7_effective_size (mps fileSize addr : Nat) (data : List Nat)
    (hL : 0 < maxSize mps) (hlen : data.length < 2 ^ 32) :
    writeFileProgress mps fileSize addr data
        = WriteResult.ok
            ((chunkLoop (min data.length fileSize) (maxSize mps) 0).map
              fun p => (addr + p.1, (data.drop p.1).take p.2))
            (min data.length fileSize)
      ∧ (∀ p ∈ chunkLoop (min data.length fileSize) (maxSize mps) 0,
          p.1 + p.2 ≤ data.length)
      ∧ (min data.length fileSize = 0
          → chunkLoop (min data.length fileSize) (maxSize mps) 0 = []) := by
  have hmin : (if fileSize < data.length % 2 ^ 32 then fileSize else data.length % 2 ^ 32)
      = min data.length fileSize := by
    rw [Nat.mod_eq_of_lt hlen, Nat.min_def]
    split <;> split <;> omega
  refine ⟨?_, ?_, ?_⟩
  · simp only [writeFileProgress, hmin]
    rw [if_neg (by omega)]
    have hsum := chunkLoop_sum (min data.length fileSize) (maxSize mps) hL
      (min data.length fileSize) 0 (by omega) (fun _ => Or.inl rfl)
    rw [show ((chunkLoop (min data.length fileSize) (maxSize mps) 0).map Prod.snd).sum
        = min data.length fileSize from by simpa using hsum]
  · intro p hp
    exact le_trans
      (chunkLoop_bounds (min data.length fileSize) (maxSize mps) hL
        (min data.length fileSize) 0 (by omega) (fun _ => Or.inl rfl) p hp)
      (Nat.min_le_left _ _)
  · intro h0
    rw [h0]
    exact chunkLoop_nil 0 (maxSize mps) 0 (Nat.le_refl 0)

/-- **C7** witness: a 3-byte buffer with declared size 2 transfers
exactly 2 bytes in one write. -/
theorem c7_effective_size_witness :
    writeFileProgress 400 2 5 [1, 2, 3]
        = WriteResult.ok
            ((chunkLoop (min (List.length [1, 2, 3]) 2) (maxSize 400) 0).map
              fun p => (5 + p.1, (([1, 2, 3] : List Nat).drop p.1).take p.2))
            (min (List.length [1, 2, 3]) 2)
      ∧ (∀ p ∈ chunkLoop (min (List.length [1, 2, 3]) 2) (maxSize 400) 0,
          p.1 + p.2 ≤ List.length [1, 2, 3])
      ∧ (min (List.length [1, 2, 3]) 2 = 0
          → chunkLoop (min (List.length [1, 2, 3]) 2) (maxSize 400) 0 = []) :=
  c7_effective_size 400 2 5 [1, 2, 3] (by decide) (by decide)

end CargoV5
